import Mathlib

/-!
Shallow embedding of the episode-lifecycle tracking and cadence-scheduling
subsystem of the adeptRL containers (`adept/containers/_base.py` and
`adept/containers/evaluation.py`), with proofs about it.

Modelling conventions:
* Python float rewards are modelled as exact rationals (`ℚ`).
* An `info` dictionary is abstracted to its truthiness (`Bool`): `true`
  means non-empty.
* Python runtime errors (index errors, tensor size errors) are modelled by
  `Option`: a `none` result means the operation raises.
* Wall-clock readings (`time()`) are external inputs and are passed in as
  explicit parameters.
-/

namespace Adept

/-- one step's raw input from the environment batch: per-slot rewards,
terminal flags, and the truthiness of the per-slot info dicts. -/
structure StepInput where
  rewards : List Rat
  terminals : List Bool
  infos : List Bool

/-- evaluation-mode ingest (`Evaluation.update_buffers`,
`adept/containers/evaluation.py` lines 255-273; the same per-slot rule is
inlined in `EvalContainer.run`, lines 138-145).  The Python loop runs over
`range(len(rewards))`; a slot whose completion status is already true is
skipped untouched; otherwise the reward is added to the buffer entry, and
when `terminals[i] and infos[i]` the completion status is set to true.
Slots past `len(rewards)` are left unchanged; running out of one of the
other vectors first raises (`none`).  Arguments: buffer, statuses,
rewards, terminals, infos. -/
def evalIngest : List Rat → List Bool → List Rat → List Bool → List Bool →
    Option (List Rat × List Bool)
  | buf, sts, [], _, _ => some (buf, sts)
  | buf, sts, r :: rs, ts, infs =>
    match buf, sts, ts, infs with
    | b :: bs, s :: ss, t :: ts2, i :: is2 =>
      if s then
        (evalIngest bs ss rs ts2 is2).map (fun p => (b :: p.1, s :: p.2))
      else if t && i then
        (evalIngest bs ss rs ts2 is2).map (fun p => ((b + r) :: p.1, true :: p.2))
      else
        (evalIngest bs ss rs ts2 is2).map (fun p => ((b + r) :: p.1, s :: p.2))
    | _, _, _, _ => none

/-- state of an `Evaluation` container: the lazily created
`episode_reward_buffer` (zeros of length `nb_env` on first use), the
`episode_complete_statuses` list, and the inherited `local_step_count`. -/
structure EvalState where
  buf : List Rat
  statuses : List Bool
  localStep : Nat

/-- `Evaluation.update_buffers` as a state transformer; the override's body
never mentions `local_step_count`, so it is carried through. -/
def Evaluation.update_buffers (s : EvalState) (rewards : List Rat)
    (terminals infos : List Bool) : Option EvalState :=
  (evalIngest s.buf s.statuses rewards terminals infos).map
    (fun p => ⟨p.1, p.2, s.localStep⟩)

/-- fold of `Evaluation.update_buffers` over a finite sequence of steps. -/
def runEval : EvalState → List StepInput → Option EvalState
  | s, [] => some s
  | s, stp :: rest =>
    (Evaluation.update_buffers s stp.rewards stp.terminals stp.infos).bind
      (fun s2 => runEval s2 rest)

/-- fold of the evaluation-mode ingest over a finite sequence of steps
(the body of the while loops of `Evaluation.run` and `EvalContainer.run`). -/
def ingestTrace : List Rat × List Bool → List StepInput →
    Option (List Rat × List Bool)
  | st, [] => some st
  | st, stp :: rest =>
    (evalIngest st.1 st.2 stp.rewards stp.terminals stp.infos).bind
      (fun st2 => ingestTrace st2 rest)

/-- one network-checkpoint pass inside `EvalContainer.run`
(`evaluation.py` lines 115-148): `episode_completes` is freshly
initialised to all-false (line 128) while `reward_buf` is whatever is
passed in. -/
def networkPass (nbEnv : Nat) (buf : List Rat) (steps : List StepInput) :
    Option (List Rat × List Bool) :=
  ingestTrace (buf, List.replicate nbEnv false) steps

/-- the network loop of one epoch of `EvalContainer.run`: the buffer is
threaded from one checkpoint's pass to the next; returns, per checkpoint,
the buffer snapshot its mean/std is computed from (lines 147-148). -/
def epochPasses (nbEnv : Nat) : List Rat → List (List StepInput) →
    Option (List (List Rat))
  | _, [] => some []
  | buf, steps :: rest =>
    (networkPass nbEnv buf steps).bind (fun p =>
      (epochPasses nbEnv p.1 rest).map (fun snaps => p.1 :: snaps))

/-- one epoch of `EvalContainer.run` (`evaluation.py` lines 110-148):
`reward_buf = torch.zeros(nb_env)` is executed once per epoch (line 114),
outside the network-checkpoint loop. -/
def epochRun (nbEnv : Nat) (nets : List (List StepInput)) :
    Option (List (List Rat)) :=
  epochPasses nbEnv (List.replicate nbEnv 0) nets

/-- the in-place torch add `self.episode_reward_buffer +=
torch.tensor(rewards).float()` (`_base.py` line 66): elementwise when the
lengths agree, broadcast when `rewards` has length 1, otherwise a tensor
size error. -/
def tensorAddInplace (buf rewards : List Rat) : Option (List Rat) :=
  if rewards.length = buf.length then
    some (List.zipWith (fun a b => a + b) buf rewards)
  else if rewards.length = 1 then
    some (buf.map (fun a => a + rewards.headD 0))
  else none

/-- the completion scan of `CountsRewards.update_buffers` (`_base.py`
lines 68-77): `zip(buffer, terminals, infos)` truncates to the shortest
input; on `done and info` the buffer entry is appended to the outputs and
zeroed in place.  Returns (new buffer, terminal_rewards, terminal_infos). -/
def scanTerminals : List Rat → List Bool → List Bool →
    List Rat × List Rat × List Bool
  | b :: bs, t :: ts, i :: is2 =>
    let rest := scanTerminals bs ts is2
    if t && i then (0 :: rest.1, b :: rest.2.1, i :: rest.2.2)
    else (b :: rest.1, rest.2.1, rest.2.2)
  | bs, _, _ => (bs, [], [])

/-- state of a training-mode `CountsRewards` owner: the reward buffer and
`local_step_count`. -/
structure TrainState where
  buf : List Rat
  localStep : Nat

/-- training-mode ingest `CountsRewards.update_buffers` (`_base.py` lines
65-77): tensor add, then `local_step_count += nb_env`, then the completion
scan. -/
def CountsRewards.update_buffers (nbEnv : Nat) (s : TrainState)
    (rewards : List Rat) (terminals infos : List Bool) :
    Option (TrainState × List Rat × List Bool) :=
  (tensorAddInplace s.buf rewards).map (fun buf2 =>
    let scanned := scanTerminals buf2 terminals infos
    (⟨scanned.1, s.localStep + nbEnv⟩, scanned.2.1, scanned.2.2))

/-- fold of training-mode ingests over a finite sequence of steps,
collecting each call's emitted `terminal_rewards` list. -/
def runTrain (nbEnv : Nat) : TrainState → List StepInput →
    Option (TrainState × List (List Rat))
  | s, [] => some (s, [])
  | s, stp :: rest =>
    (CountsRewards.update_buffers nbEnv s stp.rewards stp.terminals stp.infos).bind
      (fun p => (runTrain nbEnv p.1 rest).map (fun q => (q.1, p.2.1 :: q.2)))

/-- truthiness of `terminals[i] and infos[i]` for one step. -/
def condAt (stp : StepInput) (i : Nat) : Bool :=
  stp.terminals.getD i false && stp.infos.getD i false

/-- reads slot i's emitted completed-episode reward off one call's flat
`terminal_rewards` output: completions are appended in increasing slot
order, so when slot i completes its entry sits at the position equal to
the number of completing slots below i. -/
def slotEmit (stp : StepInput) (emitted : List Rat) (i : Nat) : Rat :=
  if condAt stp i then
    emitted.getD ((List.range i).countP (fun j => condAt stp j)) 0
  else 0

/-- `SavesModels.save_model_if_epoch` (`_base.py` lines 238-247): returns
the saver invocations made during the call (the step count each save was
fired at) together with the new `next_save`. -/
def save_model_if_epoch (epochLen nextSave stepCount : Int) :
    List Int × Int :=
  if nextSave ≤ stepCount then ([stepCount], nextSave + epochLen)
  else ([], nextSave)

/-- fold of `save_model_if_epoch` over a sequence of step counts,
concatenating all saver invocations. -/
def runSaves (epochLen : Int) : Int → List Int → List Int × Int
  | ns, [] => ([], ns)
  | ns, sc :: rest =>
    let p := save_model_if_epoch epochLen ns sc
    let q := runSaves epochLen p.2 rest
    (p.1 ++ q.1, q.2)

/-- the while loop of `SavesModels.set_next_save` (`_base.py` lines
249-252), instrumented with fuel: `none` means the loop has not exited
within `fuel` iterations. -/
def setNextSaveLoop (epochLen : Int) : Nat → Int → Int → Option Int
  | 0, ns, ic => if ns ≤ ic then none else some ns
  | fuel + 1, ns, ic =>
    if ns ≤ ic then setNextSaveLoop epochLen fuel (ns + epochLen) ic
    else some ns

/-- `SavesModels.set_next_save` (`_base.py` lines 249-252); the `List Int`
component records saver invocations, of which the body contains none. -/
def set_next_save (epochLen nextSave initialCount : Int) (fuel : Nat) :
    Option (Int × List Int) :=
  if 0 < initialCount then
    (setNextSaveLoop epochLen fuel nextSave initialCount).map (fun v => (v, []))
  else some (nextSave, [])

/-- the fast-forward loop never returns, whatever the fuel bound. -/
def setNextSaveDiverges (epochLen nextSave initialCount : Int) : Prop :=
  ∀ fuel : Nat, set_next_save epochLen nextSave initialCount fuel = none

/-- cadence core of `WritesSummaries.write_summaries` (`_base.py` lines
178-183): fires when `now - prev_summary_time > summary_frequency` and
then moves `prev_summary_time` to `now`; the scalar emissions themselves
are abstracted into the fired flag. -/
def write_summaries (summaryFrequency prevTime now : Rat) : Bool × Rat :=
  if summaryFrequency < now - prevTime then (true, now) else (false, prevTime)

/-- arithmetic mean, `np.mean`. -/
def mean (xs : List Rat) : Rat := xs.sum / (xs.length : Rat)

/-- one line written by `LogsRewards.log_episode_results`: the fields the
format strings interpolate. -/
structure LogRecord where
  rank : Option Int
  globalStep : Int
  reward : Rat
  rate : Rat
  localRate : Option Rat

/-- `LogsRewards.log_episode_results` (`_base.py` lines 89-128): `deltaT`
stands for the wall-clock difference `time() - self.start_time`.  Returns
the emitted log records together with the function's return value, which
is the `terminal_rewards` argument itself (line 128). -/
def log_episode_results (terminalRewards : List Rat) (globalStepCount : Int)
    (localStepCount : Option Int) (rank : Option Int)
    (initialStepCount : Int) (deltaT : Rat) : List LogRecord × List Rat :=
  if terminalRewards.isEmpty then ([], terminalRewards)
  else
    let ls := localStepCount.getD globalStepCount
    let epReward := mean terminalRewards
    match rank with
    | none =>
      ([⟨none, globalStepCount, epReward,
         ((ls - initialStepCount : Int) : Rat) / deltaT, none⟩],
       terminalRewards)
    | some rk =>
      ([⟨some rk, globalStepCount, epReward,
         ((globalStepCount - initialStepCount : Int) : Rat) / deltaT,
         some (((ls - initialStepCount : Int) : Rat) / deltaT)⟩],
       terminalRewards)

/-- the sizing contract of one batched environment step: every per-slot
vector has length `N = nb_env`. -/
def wellSized (N : Nat) (steps : List StepInput) : Prop :=
  ∀ stp ∈ steps, stp.rewards.length = N ∧ stp.terminals.length = N ∧
    stp.infos.length = N

theorem getD_replicate {α : Type} (a d : α) :
    ∀ (n i : Nat), i < n → (List.replicate n a).getD i d = a := by
  intro n
  induction n with
  | zero => intro i hi; omega
  | succ m ih =>
    intro i hi
    cases i with
    | zero => simp [List.replicate]
    | succ j => simpa [List.replicate] using ih j (by omega)

/-- componentwise characterization of the evaluation-mode ingest: on
inputs whose other vectors are at least as long as `rewards`, the call
succeeds; a slot below `len(rewards)` with completion status true is left
untouched, one with status false accumulates its reward and gets status
`terminals[i] and infos[i]`; slots at or past `len(rewards)` are
untouched. -/
theorem evalIngest_spec (rw : List Rat) :
    ∀ (buf : List Rat) (sts ts infs : List Bool),
    rw.length ≤ buf.length → rw.length ≤ sts.length →
    rw.length ≤ ts.length → rw.length ≤ infs.length →
    ∃ b2 s2, evalIngest buf sts rw ts infs = some (b2, s2) ∧
      b2.length = buf.length ∧ s2.length = sts.length ∧
      (∀ j, j < rw.length →
        (sts.getD j false = true →
          b2.getD j 0 = buf.getD j 0 ∧ s2.getD j false = true) ∧
        (sts.getD j false = false →
          b2.getD j 0 = buf.getD j 0 + rw.getD j 0 ∧
          s2.getD j false = (ts.getD j false && infs.getD j false))) ∧
      (∀ j, rw.length ≤ j → b2[j]? = buf[j]? ∧ s2[j]? = sts[j]?) := by
  induction rw with
  | nil =>
    intro buf sts ts infs _ _ _ _
    refine ⟨buf, sts, by simp [evalIngest], rfl, rfl, ?_, ?_⟩
    · intro j hj; exact absurd hj (Nat.not_lt_zero j)
    · intro j _; exact ⟨rfl, rfl⟩
  | cons r rs ih =>
    intro buf sts ts infs hb hs ht hi
    cases buf with
    | nil => simp at hb
    | cons b bs =>
    cases sts with
    | nil => simp at hs
    | cons s ss =>
    cases ts with
    | nil => simp at ht
    | cons t ts2 =>
    cases infs with
    | nil => simp at hi
    | cons i is2 =>
    simp only [List.length_cons, Nat.succ_le_succ_iff] at hb hs ht hi
    obtain ⟨b2, s2, hrun, hlb, hls, hin, hout⟩ := ih bs ss ts2 is2 hb hs ht hi
    cases s with
    | true =>
      refine ⟨b :: b2, true :: s2, ?_, by simp [hlb], by simp [hls], ?_, ?_⟩
      · simp [evalIngest, hrun]
      · intro j hj
        cases j with
        | zero =>
          constructor
          · intro _; exact ⟨rfl, rfl⟩
          · intro h; simp at h
        | succ j2 =>
          simp only [List.getD_cons_succ]
          exact hin j2 (by simpa using hj)
      · intro j hj
        cases j with
        | zero => simp at hj
        | succ j2 =>
          simp only [List.getElem?_cons_succ]
          exact hout j2 (by simp only [List.length_cons] at hj; omega)
    | false =>
      cases hti : (t && i) with
      | true =>
        refine ⟨(b + r) :: b2, true :: s2, ?_, by simp [hlb], by simp [hls],
          ?_, ?_⟩
        · simp [evalIngest, hrun, hti]
        · intro j hj
          cases j with
          | zero =>
            constructor
            · intro h; simp at h
            · intro _
              simp [List.getD_cons_zero, hti]
          | succ j2 =>
            simp only [List.getD_cons_succ]
            exact hin j2 (by simpa using hj)
        · intro j hj
          cases j with
          | zero => simp at hj
          | succ j2 =>
            simp only [List.getElem?_cons_succ]
            exact hout j2 (by simp only [List.length_cons] at hj; omega)
      | false =>
        refine ⟨(b + r) :: b2, false :: s2, ?_, by simp [hlb], by simp [hls],
          ?_, ?_⟩
        · simp [evalIngest, hrun, hti]
        · intro j hj
          cases j with
          | zero =>
            constructor
            · intro h; simp at h
            · intro _
              simp [List.getD_cons_zero, hti]
          | succ j2 =>
            simp only [List.getD_cons_succ]
            exact hin j2 (by simpa using hj)
        · intro j hj
          cases j with
          | zero => simp at hj
          | succ j2 =>
            simp only [List.getElem?_cons_succ]
            exact hout j2 (by simp only [List.length_cons] at hj; omega)

/-- once a slot's completion status is true, a successful evaluation-mode
ingest leaves that slot's buffer entry unchanged and its status true,
whatever the shapes of the inputs. -/
theorem evalIngest_discard (rw : List Rat) :
    ∀ (buf b2 : List Rat) (sts ts infs s2 : List Bool) (i : Nat),
    evalIngest buf sts rw ts infs = some (b2, s2) →
    sts[i]? = some true →
    b2[i]? = buf[i]? ∧ s2[i]? = some true := by
  induction rw with
  | nil =>
    intro buf b2 sts ts infs s2 i hrun hst
    simp only [evalIngest, Option.some.injEq, Prod.mk.injEq] at hrun
    rw [← hrun.1, ← hrun.2]
    exact ⟨rfl, hst⟩
  | cons r rs ih =>
    intro buf b2 sts ts infs s2 i hrun hst
    cases buf with
    | nil => simp [evalIngest] at hrun
    | cons b bs =>
    cases sts with
    | nil => simp [evalIngest] at hrun
    | cons s ss =>
    cases ts with
    | nil => simp [evalIngest] at hrun
    | cons t ts2 =>
    cases infs with
    | nil => simp [evalIngest] at hrun
    | cons i0 is2 =>
    cases i with
    | zero =>
      simp only [List.getElem?_cons_zero, Option.some.injEq] at hst
      subst hst
      simp only [evalIngest, if_true, Option.map_eq_some'] at hrun
      obtain ⟨p, _, hp⟩ := hrun
      simp only [Prod.mk.injEq] at hp
      obtain ⟨hp1, hp2⟩ := hp
      subst hp1; subst hp2
      simp
    | succ j =>
      simp only [List.getElem?_cons_succ] at hst ⊢
      cases s with
      | true =>
        simp only [evalIngest, if_true, Option.map_eq_some'] at hrun
        obtain ⟨p, hrec, hp⟩ := hrun
        simp only [Prod.mk.injEq] at hp
        obtain ⟨hp1, hp2⟩ := hp
        subst hp1; subst hp2
        simp only [List.getElem?_cons_succ]
        exact ih bs p.1 ss ts2 is2 p.2 j (by rw [hrec]) hst
      | false =>
        cases hti : (t && i0) with
        | true =>
          simp only [evalIngest, hti, Bool.false_eq_true, if_false, if_true,
            Option.map_eq_some'] at hrun
          obtain ⟨p, hrec, hp⟩ := hrun
          simp only [Prod.mk.injEq] at hp
          obtain ⟨hp1, hp2⟩ := hp
          subst hp1; subst hp2
          simp only [List.getElem?_cons_succ]
          exact ih bs p.1 ss ts2 is2 p.2 j (by rw [hrec]) hst
        | false =>
          simp only [evalIngest, hti, Bool.false_eq_true, if_false,
            Option.map_eq_some'] at hrun
          obtain ⟨p, hrec, hp⟩ := hrun
          simp only [Prod.mk.injEq] at hp
          obtain ⟨hp1, hp2⟩ := hp
          subst hp1; subst hp2
          simp only [List.getElem?_cons_succ]
          exact ih bs p.1 ss ts2 is2 p.2 j (by rw [hrec]) hst

theorem ingestTrace_append (as bs : List StepInput) :
    ∀ st, ingestTrace st (as ++ bs)
      = (ingestTrace st as).bind (fun st2 => ingestTrace st2 bs) := by
  induction as with
  | nil => intro st; simp [ingestTrace]
  | cons a rest ih =>
    intro st
    simp only [List.cons_append, ingestTrace]
    cases evalIngest st.1 st.2 a.rewards a.terminals a.infos with
    | none => simp
    | some st2 => simp [ih st2]

/-- through steps in which slot i is not completing, the evaluation-mode
trace keeps slot i's status false and accumulates its rewards. -/
theorem ingestTrace_accum (N i : Nat) (hi : i < N) :
    ∀ (pre : List StepInput) (buf : List Rat) (sts : List Bool),
    buf.length = N → sts.length = N →
    wellSized N pre →
    sts.getD i false = false →
    (∀ stp ∈ pre, condAt stp i = false) →
    ∃ b2 s2, ingestTrace (buf, sts) pre = some (b2, s2) ∧
      b2.length = N ∧ s2.length = N ∧ s2.getD i false = false ∧
      b2.getD i 0 = buf.getD i 0
        + (pre.map (fun stp => stp.rewards.getD i 0)).sum := by
  intro pre
  induction pre with
  | nil =>
    intro buf sts hb hs _ hsti _
    exact ⟨buf, sts, by simp [ingestTrace], hb, hs, hsti, by simp⟩
  | cons stp rest ih =>
    intro buf sts hb hs hws hsti hnc
    obtain ⟨hr, ht, hinf⟩ := hws stp (by simp)
    obtain ⟨b2, s2, hrun, hlb, hls, hin, _⟩ :=
      evalIngest_spec stp.rewards buf sts stp.terminals stp.infos
        (by omega) (by omega) (by omega) (by omega)
    have hcomp := (hin i (by omega)).2 hsti
    have hc : condAt stp i = false := hnc stp (by simp)
    obtain ⟨b3, s3, hrun2, hlb3, hls3, hst3, hacc⟩ :=
      ih b2 s2 (by omega) (by omega)
        (fun q hq => hws q (by simp [hq]))
        (by rw [hcomp.2]; exact hc)
        (fun q hq => hnc q (by simp [hq]))
    refine ⟨b3, s3, ?_, hlb3, hls3, hst3, ?_⟩
    · simp [ingestTrace, hrun, hrun2]
    · rw [hacc, hcomp.1]
      simp only [List.map_cons, List.sum_cons]
      ring

/-- once slot i's status is true, a well-sized evaluation-mode trace
succeeds and leaves slot i's buffer entry and status unchanged. -/
theorem ingestTrace_frozen (N i : Nat) (hi : i < N) :
    ∀ (post : List StepInput) (buf : List Rat) (sts : List Bool),
    buf.length = N → sts.length = N →
    wellSized N post →
    sts.getD i false = true →
    ∃ b2 s2, ingestTrace (buf, sts) post = some (b2, s2) ∧
      b2.length = N ∧ s2.length = N ∧ s2.getD i false = true ∧
      b2.getD i 0 = buf.getD i 0 := by
  intro post
  induction post with
  | nil =>
    intro buf sts hb hs _ hsti
    exact ⟨buf, sts, by simp [ingestTrace], hb, hs, hsti, rfl⟩
  | cons stp rest ih =>
    intro buf sts hb hs hws hsti
    obtain ⟨hr, ht, hinf⟩ := hws stp (by simp)
    obtain ⟨b2, s2, hrun, hlb, hls, hin, _⟩ :=
      evalIngest_spec stp.rewards buf sts stp.terminals stp.infos
        (by omega) (by omega) (by omega) (by omega)
    have hcomp := (hin i (by omega)).1 hsti
    obtain ⟨b3, s3, hrun2, hlb3, hls3, hst3, hfroz⟩ :=
      ih b2 s2 (by omega) (by omega)
        (fun q hq => hws q (by simp [hq])) hcomp.2
    refine ⟨b3, s3, ?_, hlb3, hls3, hst3, ?_⟩
    · simp [ingestTrace, hrun, hrun2]
    · rw [hfroz, hcomp.1]

/-- C1: in evaluation mode, once slot i's completion status is true every
subsequent ingest discards slot i's incoming reward (the buffer entry does
not change) and emits no further completion for slot i; and when slot i
first sees terminal=true with non-empty info, its final buffer value after
the whole trace equals the cumulative sum of all of slot i's rewards up to
and including that terminal step (it is never reset to zero). -/
theorem eval_once_per_slot :
    (∀ (buf b2 : List Rat) (sts ts infs s2 : List Bool) (rw : List Rat)
        (i : Nat),
      evalIngest buf sts rw ts infs = some (b2, s2) →
      sts[i]? = some true →
      b2[i]? = buf[i]? ∧ s2[i]? = some true) ∧
    (∀ (N i : Nat) (pre post : List StepInput) (stp : StepInput),
      i < N →
      wellSized N (pre ++ stp :: post) →
      (∀ s ∈ pre, condAt s i = false) →
      condAt stp i = true →
      ∃ b2 s2,
        ingestTrace (List.replicate N 0, List.replicate N false)
          (pre ++ stp :: post) = some (b2, s2) ∧
        s2.getD i false = true ∧
        b2.getD i 0 = (pre.map (fun s => s.rewards.getD i 0)).sum
          + stp.rewards.getD i 0) := by
  constructor
  · intro buf b2 sts ts infs s2 rw i hrun hst
    exact evalIngest_discard rw buf b2 sts ts infs s2 i hrun hst
  · intro N i pre post stp hi hws hnc hc
    have hwpre : wellSized N pre := fun q hq => hws q (by simp [hq])
    have hwstp := hws stp (by simp)
    have hwpost : wellSized N post := fun q hq => hws q (by simp [hq])
    obtain ⟨b2, s2, hrun1, hlb2, hls2, hst2, hacc⟩ :=
      ingestTrace_accum N i hi pre (List.replicate N 0)
        (List.replicate N false) (by simp) (by simp) hwpre
        (getD_replicate false false N i hi)
        hnc
    obtain ⟨b3, s3, hrun2, hlb3, hls3, hin, _⟩ :=
      evalIngest_spec stp.rewards b2 s2 stp.terminals stp.infos
        (by omega) (by omega) (by omega) (by omega)
    have hcomp := (hin i (by omega)).2 hst2
    have hst3 : s3.getD i false = true := by
      rw [hcomp.2]; exact hc
    obtain ⟨b4, s4, hrun3, _, _, hst4, hfroz⟩ :=
      ingestTrace_frozen N i hi post b3 s3 (by omega) (by omega)
        hwpost hst3
    refine ⟨b4, s4, ?_, hst4, ?_⟩
    · rw [ingestTrace_append, hrun1]
      simp only [Option.bind_some, ingestTrace, hrun2, Option.bind]
      exact hrun3
    · rw [hfroz, hcomp.1, hacc]
      simp [getD_replicate (0 : Rat) 0 N i hi]

/-- closed instance of C1: one slot, a non-terminal step with reward 1, a
completing step with reward 2, then a discarded step with reward 5; the
final buffer holds the cumulative sum 3 and the status stays true. -/
theorem eval_once_per_slot_witness :
    ((([7] : List Rat))[0]? = (([7] : List Rat))[0]? ∧
      (([true] : List Bool))[0]? = some true) ∧
    (∃ b2 s2,
      ingestTrace (List.replicate 1 (0 : Rat), List.replicate 1 false)
        ([(⟨[1], [false], [true]⟩ : StepInput)] ++
          (⟨[2], [true], [true]⟩ : StepInput) ::
            [(⟨[5], [false], [false]⟩ : StepInput)]) = some (b2, s2) ∧
      s2.getD 0 false = true ∧
      b2.getD 0 0 =
        ([(⟨[1], [false], [true]⟩ : StepInput)].map
          (fun s => s.rewards.getD 0 0)).sum
          + (⟨[2], [true], [true]⟩ : StepInput).rewards.getD 0 0) :=
  ⟨eval_once_per_slot.1 [7] [7] [true] [true] [true] [true] [9] 0
      (by norm_num [evalIngest]) rfl,
    eval_once_per_slot.2 1 0 [⟨[1], [false], [true]⟩]
      [⟨[5], [false], [false]⟩] ⟨[2], [true], [true]⟩ (by decide)
      (by intro stp hstp; fin_cases hstp <;> simp [wellSized])
      (by intro s hs; fin_cases hs; simp [condAt])
      (by simp [condAt])⟩

/-- C2 (code bug): inside one epoch of `EvalContainer.run`, `reward_buf`
is zeroed once per epoch (line 114) but `episode_completes` is zeroed per
network checkpoint (line 128), so the buffer the second checkpoint's
mean/std is computed from still contains the first checkpoint's rewards:
with one slot, a first checkpoint scoring 10 and a second scoring 5, the
snapshots are [10] and then [15], not [10] and [5]. -/
theorem evalContainer_buffer_carryover :
    epochRun 1 [[⟨[10], [true], [true]⟩], [⟨[5], [true], [true]⟩]]
      = some [[10], [15]] := by
  norm_num [epochRun, epochPasses, networkPass, ingestTrace, evalIngest]

theorem countP_range_shift (f : Nat → Bool) (i : Nat) :
    (List.range (i + 1)).countP f
      = (List.range i).countP (fun j => f (j + 1))
        + (if f 0 then 1 else 0) := by
  rw [List.range_succ_eq_map, List.countP_cons, List.countP_map]
  rfl

/-- componentwise characterization of the completion scan: a completing
slot's buffer entry is zeroed and appended to `terminal_rewards` at the
position given by the number of completing slots below it; other entries
are kept. -/
theorem scanTerminals_spec :
    ∀ (buf : List Rat) (ts infs : List Bool),
    ts.length = buf.length → infs.length = buf.length →
    (scanTerminals buf ts infs).1.length = buf.length ∧
    (∀ i, i < buf.length →
      ((scanTerminals buf ts infs).1.getD i 0 =
        if ts.getD i false && infs.getD i false then 0 else buf.getD i 0) ∧
      ((ts.getD i false && infs.getD i false) = true →
        (scanTerminals buf ts infs).2.1.getD
          ((List.range i).countP
            (fun j => ts.getD j false && infs.getD j false)) 0
          = buf.getD i 0)) := by
  intro buf
  induction buf with
  | nil =>
    intro ts infs _ _
    exact ⟨by simp [scanTerminals], by intro i hi; simp at hi⟩
  | cons b bs ih =>
    intro ts infs ht hi
    cases ts with
    | nil => simp at ht
    | cons t ts2 =>
    cases infs with
    | nil => simp at hi
    | cons i0 is2 =>
    simp only [List.length_cons, Nat.succ.injEq] at ht hi
    obtain ⟨ihl, ihc⟩ := ih ts2 is2 ht hi
    cases hti : (t && i0) with
    | true =>
      constructor
      · simp [scanTerminals, hti, ihl]
      · intro i hic
        cases i with
        | zero =>
          constructor
          · simp [scanTerminals, hti]
          · intro _; simp [scanTerminals, hti]
        | succ j =>
          have hjc : j < bs.length := by simp at hic; omega
          constructor
          · simpa [scanTerminals, hti] using (ihc j hjc).1
          · intro hcnd
            simp only [List.getD_cons_succ] at hcnd
            rw [countP_range_shift]
            simp only [List.getD_cons_zero, hti, if_true]
            simp only [scanTerminals, hti, if_true, List.getD_cons_succ]
            have := (ihc j hjc).2 hcnd
            simpa using this
    | false =>
      constructor
      · simp [scanTerminals, hti, ihl]
      · intro i hic
        cases i with
        | zero =>
          constructor
          · simp [scanTerminals, hti]
          · intro hcnd; simp [hti] at hcnd
        | succ j =>
          have hjc : j < bs.length := by simp at hic; omega
          constructor
          · simpa [scanTerminals, hti] using (ihc j hjc).1
          · intro hcnd
            simp only [List.getD_cons_succ] at hcnd
            rw [countP_range_shift]
            simp only [List.getD_cons_zero, hti, if_false]
            simp only [scanTerminals, hti, Bool.false_eq_true, if_false]
            have := (ihc j hjc).2 hcnd
            simpa using this

theorem zipWith_add_getD :
    ∀ (a b : List Rat) (i : Nat), i < a.length → i < b.length →
    (List.zipWith (fun x y => x + y) a b).getD i 0
      = a.getD i 0 + b.getD i 0 := by
  intro a
  induction a with
  | nil => intro b i h _; simp at h
  | cons x xs ih =>
    intro b i h1 h2
    cases b with
    | nil => simp at h2
    | cons y ys =>
    cases i with
    | zero => simp
    | succ j =>
      simp only [List.zipWith_cons_cons, List.getD_cons_succ]
      exact ih ys j (by simp at h1; omega) (by simp at h2; omega)

theorem tensorAddInplace_spec (buf rw : List Rat)
    (h : rw.length = buf.length) :
    ∃ buf2, tensorAddInplace buf rw = some buf2 ∧
      buf2.length = buf.length ∧
      ∀ i, i < buf.length → buf2.getD i 0 = buf.getD i 0 + rw.getD i 0 := by
  refine ⟨List.zipWith (fun a b => a + b) buf rw, ?_, ?_, ?_⟩
  · simp [tensorAddInplace, h]
  · simp [List.length_zipWith, h]
  · intro i hi
    exact zipWith_add_getD buf rw i hi (by omega)

/-- componentwise characterization of one training-mode ingest on
well-sized inputs: the call succeeds, `local_step_count` advances by
`nb_env`, a completing slot's buffer entry is reset to zero with its
pre-reset value (running sum including this step's reward) emitted at
slot order, and a non-completing slot just accumulates. -/
theorem update_buffers_spec (nbEnv N : Nat) (s : TrainState)
    (stp : StepInput) (hb : s.buf.length = N) (hr : stp.rewards.length = N)
    (ht : stp.terminals.length = N) (hinf : stp.infos.length = N) :
    ∃ s2 em ei,
      CountsRewards.update_buffers nbEnv s stp.rewards stp.terminals
        stp.infos = some (s2, em, ei) ∧
      s2.buf.length = N ∧ s2.localStep = s.localStep + nbEnv ∧
      ∀ i, i < N →
        s2.buf.getD i 0
          = (if condAt stp i then 0
             else s.buf.getD i 0 + stp.rewards.getD i 0) ∧
        slotEmit stp em i
          = (if condAt stp i then s.buf.getD i 0 + stp.rewards.getD i 0
             else 0) := by
  obtain ⟨buf2, hadd, hl2, hcomp⟩ :=
    tensorAddInplace_spec s.buf stp.rewards (by omega)
  obtain ⟨hsl, hsc⟩ :=
    scanTerminals_spec buf2 stp.terminals stp.infos (by omega) (by omega)
  refine ⟨⟨(scanTerminals buf2 stp.terminals stp.infos).1,
      s.localStep + nbEnv⟩,
    (scanTerminals buf2 stp.terminals stp.infos).2.1,
    (scanTerminals buf2 stp.terminals stp.infos).2.2, ?_,
    (by show (scanTerminals buf2 stp.terminals stp.infos).1.length = N
        omega), rfl, ?_⟩
  · simp [CountsRewards.update_buffers, hadd]
  · intro i hic
    have hib : i < buf2.length := by omega
    have hbc := hcomp i (by omega)
    constructor
    · rw [(hsc i hib).1, hbc]
      simp [condAt]
    · simp only [slotEmit, condAt]
      by_cases hcnd :
        (stp.terminals.getD i false && stp.infos.getD i false) = true
      · rw [if_pos hcnd, if_pos hcnd, (hsc i hib).2 hcnd, hbc]
      · rw [if_neg hcnd, if_neg hcnd]

/-- per-slot conservation of the training-mode ingest over an arbitrary
start buffer: emitted completed-episode rewards for slot i plus slot i's
final buffer entry equal slot i's start entry plus everything ingested
for slot i. -/
theorem runTrain_spec (nbEnv N : Nat) :
    ∀ (steps : List StepInput) (s0 : TrainState),
    wellSized N steps → s0.buf.length = N →
    ∃ sF emits, runTrain nbEnv s0 steps = some (sF, emits) ∧
      sF.buf.length = N ∧
      ∀ i, i < N →
        ((steps.zip emits).map (fun p => slotEmit p.1 p.2 i)).sum
            + sF.buf.getD i 0
          = s0.buf.getD i 0
            + (steps.map (fun stp => stp.rewards.getD i 0)).sum := by
  intro steps
  induction steps with
  | nil =>
    intro s0 _ hb
    exact ⟨s0, [], by simp [runTrain], hb, by intro i _; simp⟩
  | cons stp rest ih =>
    intro s0 hws hb
    obtain ⟨hr, ht, hinf⟩ := hws stp (by simp)
    obtain ⟨s1, em, ei, hstep, hl1, _, hcomp⟩ :=
      update_buffers_spec nbEnv N s0 stp hb hr ht hinf
    obtain ⟨sF, emits, hrest, hlF, hcons⟩ :=
      ih s1 (fun q hq => hws q (by simp [hq])) hl1
    refine ⟨sF, em :: emits, ?_, hlF, ?_⟩
    · simp [runTrain, hstep, hrest]
    · intro i hic
      have h1 := (hcomp i hic).1
      have h2 := (hcomp i hic).2
      have h3 := hcons i hic
      simp only [List.zip_cons_cons, List.map_cons, List.sum_cons]
      by_cases hcnd : condAt stp i = true
      · rw [if_pos hcnd] at h1 h2
        rw [h2]
        rw [h1] at h3
        linarith
      · rw [if_neg hcnd] at h1 h2
        rw [h2]
        rw [h1] at h3
        linarith

/-- C3: conservation in training mode: starting from the freshly zeroed
buffer, for every slot i and every well-sized sequence of training-mode
ingests, the sum of completed-episode rewards emitted for slot i plus the
current buffer entry for slot i equals the sum of all rewards ever
ingested for slot i.  Slot i's emissions are read off each call's flat
`terminal_rewards` output by `slotEmit`. -/
theorem counts_conservation (nbEnv N ls : Nat) (steps : List StepInput)
    (hws : wellSized N steps) :
    ∃ sF emits,
      runTrain nbEnv ⟨List.replicate N 0, ls⟩ steps = some (sF, emits) ∧
      ∀ i, i < N →
        ((steps.zip emits).map (fun p => slotEmit p.1 p.2 i)).sum
            + sF.buf.getD i 0
          = (steps.map (fun stp => stp.rewards.getD i 0)).sum := by
  obtain ⟨sF, emits, hrun, _, hcons⟩ :=
    runTrain_spec nbEnv N steps ⟨List.replicate N 0, ls⟩ hws (by simp)
  refine ⟨sF, emits, hrun, ?_⟩
  intro i hic
  have := hcons i hic
  rwa [show (⟨List.replicate N 0, ls⟩ : TrainState).buf.getD i 0 = 0 from
    getD_replicate (0 : Rat) 0 N i hic, zero_add] at this

/-- closed instance of C3: two slots over two steps, slot 0 completing at
step 2; emitted 4 plus buffer 0 equals ingested 1+3, and emitted 0 plus
buffer 7 equals ingested 2+5. -/
theorem counts_conservation_witness :
    ∃ sF emits,
      runTrain 2 ⟨List.replicate 2 0, 0⟩
        [(⟨[1, 2], [false, false], [true, true]⟩ : StepInput),
          (⟨[3, 5], [true, false], [true, true]⟩ : StepInput)]
        = some (sF, emits) ∧
      ∀ i, i < 2 →
        (([(⟨[1, 2], [false, false], [true, true]⟩ : StepInput),
            (⟨[3, 5], [true, false], [true, true]⟩ : StepInput)].zip
              emits).map (fun p => slotEmit p.1 p.2 i)).sum
            + sF.buf.getD i 0
          = ([(⟨[1, 2], [false, false], [true, true]⟩ : StepInput),
              (⟨[3, 5], [true, false], [true, true]⟩ : StepInput)].map
                (fun stp => stp.rewards.getD i 0)).sum :=
  counts_conservation 2 2 0 _
    (by intro stp hstp; fin_cases hstp <;> simp [wellSized])

/-- C4: in training mode a step with terminal=true but empty info neither
resets slot i's buffer nor emits a completion for slot i; concretely,
rewards [1],[2],[3] over three steps for a single slot with terminals
[false,true,false] and an empty info at the terminal step leave the
buffer at 6 and emit nothing (local_step_count advances to 3). -/
theorem terminal_without_info_not_completion :
    (∀ (nbEnv N : Nat) (s : TrainState) (stp : StepInput) (i : Nat),
      s.buf.length = N → stp.rewards.length = N →
      stp.terminals.length = N → stp.infos.length = N → i < N →
      stp.terminals.getD i false = true → stp.infos.getD i false = false →
      ∃ s2 em ei,
        CountsRewards.update_buffers nbEnv s stp.rewards stp.terminals
          stp.infos = some (s2, em, ei) ∧
        s2.buf.getD i 0 = s.buf.getD i 0 + stp.rewards.getD i 0 ∧
        slotEmit stp em i = 0) ∧
    runTrain 1 ⟨[0], 0⟩
      [⟨[1], [false], [true]⟩, ⟨[2], [true], [false]⟩,
        ⟨[3], [false], [true]⟩]
      = some (⟨[6], 3⟩, [[], [], []]) := by
  constructor
  · intro nbEnv N s stp i hb hr ht hinf hic hterm hemp
    obtain ⟨s2, em, ei, hstep, _, _, hcomp⟩ :=
      update_buffers_spec nbEnv N s stp hb hr ht hinf
    have hcnd : condAt stp i = false := by
      have hdef : condAt stp i
          = (stp.terminals.getD i false && stp.infos.getD i false) := rfl
      rw [hdef, hterm, hemp]
      rfl
    have h1 := (hcomp i hic).1
    have h2 := (hcomp i hic).2
    rw [if_neg (by simp [hcnd])] at h1
    rw [if_neg (by simp [hcnd])] at h2
    exact ⟨s2, em, ei, hstep, h1, h2⟩
  · norm_num [runTrain, CountsRewards.update_buffers, tensorAddInplace,
      scanTerminals]

/-- closed instance of the general half of C4: one slot, buffer 4,
ingesting reward 2 with terminal=true and empty info accumulates to 6 and
emits nothing for the slot. -/
theorem terminal_without_info_not_completion_witness :
    ∃ s2 em ei,
      CountsRewards.update_buffers 1 (⟨[4], 0⟩ : TrainState)
        (⟨[2], [true], [false]⟩ : StepInput).rewards
        (⟨[2], [true], [false]⟩ : StepInput).terminals
        (⟨[2], [true], [false]⟩ : StepInput).infos = some (s2, em, ei) ∧
      s2.buf.getD 0 0
        = (⟨[4], 0⟩ : TrainState).buf.getD 0 0
          + (⟨[2], [true], [false]⟩ : StepInput).rewards.getD 0 0 ∧
      slotEmit (⟨[2], [true], [false]⟩ : StepInput) em 0 = 0 :=
  terminal_without_info_not_completion.1 1 1 ⟨[4], 0⟩
    ⟨[2], [true], [false]⟩ 0 rfl rfl rfl rfl (by omega) rfl rfl

theorem save_step_mono (eL ns sc : Int) (hE : 0 ≤ eL) :
    ns ≤ (save_model_if_epoch eL ns sc).2 := by
  unfold save_model_if_epoch
  split
  · show ns ≤ ns + eL
    omega
  · show ns ≤ ns
    omega

theorem runSaves_mono (eL : Int) (hE : 0 ≤ eL) :
    ∀ (calls : List Int) (ns : Int), ns ≤ (runSaves eL ns calls).2 := by
  intro calls
  induction calls with
  | nil => intro ns; simp [runSaves]
  | cons sc rest ih =>
    intro ns
    have h1 := save_step_mono eL ns sc hE
    have h2 := ih (save_model_if_epoch eL ns sc).2
    calc ns ≤ (save_model_if_epoch eL ns sc).2 := h1
      _ ≤ (runSaves eL (save_model_if_epoch eL ns sc).2 rest).2 := h2
      _ = (runSaves eL ns (sc :: rest)).2 := rfl

/-- C5: the checkpoint trigger fires exactly when
`step_count >= next_save`; on a fire it makes exactly one saver call and
advances the threshold by `epoch_len`, otherwise it leaves the threshold;
with `epoch_len > 0` the threshold is non-decreasing over any sequence of
calls; concretely with epoch_len=1000 and next_save=1000, step 999 does
not fire (threshold stays 1000) and step 1000 fires (threshold 2000). -/
theorem save_trigger_spec :
    (∀ eL ns sc : Int,
      ((save_model_if_epoch eL ns sc).1 ≠ [] ↔ ns ≤ sc) ∧
      (save_model_if_epoch eL ns sc).1.length ≤ 1 ∧
      (ns ≤ sc → save_model_if_epoch eL ns sc = ([sc], ns + eL)) ∧
      (¬ ns ≤ sc → save_model_if_epoch eL ns sc = ([], ns))) ∧
    (∀ eL : Int, 0 < eL → ∀ (calls : List Int) (ns : Int),
      ns ≤ (runSaves eL ns calls).2) ∧
    (save_model_if_epoch 1000 1000 999 = ([], 1000) ∧
      save_model_if_epoch 1000 1000 1000 = ([1000], 2000)) := by
  refine ⟨?_, ?_, by decide, by decide⟩
  · intro eL ns sc
    by_cases h : ns ≤ sc
    · simp [save_model_if_epoch, h]
    · simp [save_model_if_epoch, h]
  · intro eL hE calls ns
    exact runSaves_mono eL (by omega) calls ns

/-- closed instance of C5: a crossed threshold fires and advances, and
the threshold never decreases over a two-call sequence. -/
theorem save_trigger_spec_witness :
    save_model_if_epoch 5 3 7 = ([7], 3 + 5) ∧
    (1000 : Int) ≤ (runSaves 1000 1000 [999, 1000]).2 :=
  ⟨(save_trigger_spec.1 5 3 7).2.2.1 (by omega),
    save_trigger_spec.2.1 1000 (by omega) [999, 1000] 1000⟩

theorem setNextSaveLoop_exit (eL ic v : Int) (h : ic < v) :
    ∀ fuel : Nat, setNextSaveLoop eL fuel v ic = some v := by
  intro fuel
  cases fuel with
  | zero =>
    show (if v ≤ ic then none else some v) = some v
    rw [if_neg (by omega)]
  | succ f =>
    show (if v ≤ ic then setNextSaveLoop eL f (v + eL) ic else some v)
      = some v
    rw [if_neg (by omega)]

theorem setNextSaveLoop_total (eL ic : Int) (hE : 0 < eL) :
    ∀ (fuel : Nat) (ns : Int), (ic + 1 - ns).toNat ≤ fuel →
    ∃ v, setNextSaveLoop eL fuel ns ic = some v ∧ ic < v := by
  intro fuel
  induction fuel with
  | zero =>
    intro ns h
    refine ⟨ns, ?_, by omega⟩
    show (if ns ≤ ic then none else some ns) = some ns
    rw [if_neg (by omega)]
  | succ f ih =>
    intro ns h
    by_cases hc : ns ≤ ic
    · obtain ⟨v, hv, hlt⟩ := ih (ns + eL) (by omega)
      refine ⟨v, ?_, hlt⟩
      show (if ns ≤ ic then setNextSaveLoop eL f (ns + eL) ic else some ns)
        = some v
      rw [if_pos hc]
      exact hv
    · refine ⟨ns, ?_, by omega⟩
      show (if ns ≤ ic then setNextSaveLoop eL f (ns + eL) ic else some ns)
        = some ns
      rw [if_neg hc]

/-- C6: with `epoch_len > 0` the resume fast-forward terminates with a
threshold strictly above `initial_count` (when that is positive), makes
no saver call, and is idempotent: running it again from the resulting
threshold returns the same threshold under any fuel bound. -/
theorem set_next_save_idempotent (eL ns ic : Int) (hE : 0 < eL) :
    ∃ v : Int,
      set_next_save eL ns ic ((ic + 1 - ns).toNat) = some (v, []) ∧
      (0 < ic → ic < v) ∧
      ∀ fuel : Nat, set_next_save eL v ic fuel = some (v, []) := by
  by_cases hic : 0 < ic
  · obtain ⟨v, hv, hlt⟩ :=
      setNextSaveLoop_total eL ic hE ((ic + 1 - ns).toNat) ns (le_refl _)
    refine ⟨v, ?_, fun _ => hlt, ?_⟩
    · simp [set_next_save, hic, hv]
    · intro fuel
      simp [set_next_save, hic, setNextSaveLoop_exit eL ic v hlt fuel]
  · refine ⟨ns, ?_, fun h => absurd h hic, ?_⟩
    · simp [set_next_save, hic]
    · intro fuel
      simp [set_next_save, hic]

/-- closed instance of C6: epoch_len 10, next_save 0, initial_count 25. -/
theorem set_next_save_idempotent_witness :
    ∃ v : Int,
      set_next_save 10 0 25 (((25 : Int) + 1 - 0).toNat) = some (v, []) ∧
      (0 < (25 : Int) → 25 < v) ∧
      ∀ fuel : Nat, set_next_save 10 v 25 fuel = some (v, []) :=
  set_next_save_idempotent 10 0 25 (by omega)

/-- C7 refuted: a length-1 rewards vector against a 2-slot batch raises
nothing: the evaluation-mode ingest succeeds, silently touching only slot
0, and the training-mode ingest succeeds, silently broadcasting the one
reward to both slots.  No InvalidBatchSize error exists in the code. -/
theorem ingest_length_mismatch_no_error :
    evalIngest [0, 0] [false, false] [5] [false] [false]
      = some ([5, 0], [false, false]) ∧
    CountsRewards.update_buffers 2 ⟨[0, 0], 0⟩ [5] [false, false]
      [false, false] = some (⟨[5, 5], 2⟩, [], []) := by
  constructor
  · norm_num [evalIngest]
  · norm_num [CountsRewards.update_buffers, tensorAddInplace, scanTerminals]

/-- C7 amended: neither ingest validates input lengths: the
evaluation-mode ingest processes only the first `len(rewards)` slots and
silently leaves the rest unchanged; the training-mode elementwise add
silently broadcasts a length-1 rewards vector; only a rewards length that
is neither 1 nor the buffer length makes the training-mode ingest raise
(a tensor size error, not a dedicated InvalidBatchSize). -/
theorem ingest_length_mismatch_truncates :
    (∀ (buf rw : List Rat) (sts ts infs : List Bool),
      rw.length ≤ buf.length → rw.length ≤ sts.length →
      rw.length ≤ ts.length → rw.length ≤ infs.length →
      ∃ b2 s2, evalIngest buf sts rw ts infs = some (b2, s2) ∧
        ∀ j, rw.length ≤ j → b2[j]? = buf[j]? ∧ s2[j]? = sts[j]?) ∧
    (∀ (buf rw : List Rat), rw.length = 1 →
      tensorAddInplace buf rw
        = some (buf.map (fun a => a + rw.headD 0))) ∧
    (∀ (nbEnv : Nat) (s : TrainState) (rw : List Rat)
        (ts infs : List Bool),
      rw.length ≠ 1 → rw.length ≠ s.buf.length →
      CountsRewards.update_buffers nbEnv s rw ts infs = none) := by
  refine ⟨?_, ?_, ?_⟩
  · intro buf rw sts ts infs h1 h2 h3 h4
    obtain ⟨b2, s2, hrun, _, _, _, hout⟩ :=
      evalIngest_spec rw buf sts ts infs h1 h2 h3 h4
    exact ⟨b2, s2, hrun, hout⟩
  · intro buf rw hr
    by_cases h : rw.length = buf.length
    · obtain ⟨b, hb⟩ := List.length_eq_one.mp (by omega : buf.length = 1)
      obtain ⟨r, hrr⟩ := List.length_eq_one.mp hr
      subst hb; subst hrr
      simp [tensorAddInplace]
    · unfold tensorAddInplace
      rw [if_neg h, if_pos hr]
  · intro nbEnv s rw ts infs h1 h2
    unfold CountsRewards.update_buffers tensorAddInplace
    rw [if_neg h2, if_neg h1]
    rfl

/-- closed instance of the amended C7 at concrete mismatched inputs. -/
theorem ingest_length_mismatch_truncates_witness :
    (∃ b2 s2,
      evalIngest [0, 0] [false, false] [5] [false] [false]
        = some (b2, s2) ∧
      ∀ j, ([5] : List Rat).length ≤ j →
        b2[j]? = ([0, 0] : List Rat)[j]? ∧
        s2[j]? = ([false, false] : List Bool)[j]?) ∧
    tensorAddInplace [1, 2] [5]
      = some (([1, 2] : List Rat).map
          (fun a => a + ([5] : List Rat).headD 0)) ∧
    CountsRewards.update_buffers 2 ⟨[0, 0], 0⟩ [1, 2, 3] [] [] = none :=
  ⟨ingest_length_mismatch_truncates.1 [0, 0] [5] [false, false] [false]
      [false] (by decide) (by decide) (by decide) (by decide),
    ingest_length_mismatch_truncates.2.1 [1, 2] [5] rfl,
    ingest_length_mismatch_truncates.2.2 2 ⟨[0, 0], 0⟩ [1, 2, 3] [] []
      (by decide) (by decide)⟩

theorem setNextSaveLoop_stuck (eL ic : Int) (hE : eL ≤ 0) :
    ∀ (fuel : Nat) (ns : Int), ns ≤ ic →
    setNextSaveLoop eL fuel ns ic = none := by
  intro fuel
  induction fuel with
  | zero =>
    intro ns h
    show (if ns ≤ ic then none else some ns) = none
    rw [if_pos h]
  | succ f ih =>
    intro ns h
    show (if ns ≤ ic then setNextSaveLoop eL f (ns + eL) ic else some ns)
      = none
    rw [if_pos h]
    exact ih (ns + eL) (by omega)

/-- C8 refuted: nothing rejects a degenerate cadence: with epoch_len 0
the resume fast-forward from next_save 0 and initial_count 1 never
returns, and the checkpoint trigger fires on both of two consecutive
calls at step 7 while the threshold stays at 5. -/
theorem degenerate_cadence_not_rejected :
    setNextSaveDiverges 0 0 1 ∧ runSaves 0 5 [7, 7] = ([7, 7], 5) := by
  constructor
  · intro fuel
    simp [set_next_save,
      setNextSaveLoop_stuck 0 1 (by omega) fuel 0 (by omega)]
  · decide

/-- C8 amended: no construction-time validation exists; with
`epoch_len <= 0` the fast-forward loops forever whenever
`0 < initial_count` and `next_save <= initial_count`, the checkpoint
trigger fires on every call once `step_count >= next_save` (the threshold
never advances), and with `summary_frequency <= 0` the summary trigger
fires on every call on which any time has elapsed. -/
theorem degenerate_cadence_behavior :
    (∀ eL ns ic : Int, eL ≤ 0 → 0 < ic → ns ≤ ic →
      setNextSaveDiverges eL ns ic) ∧
    (∀ eL ns sc : Int, eL ≤ 0 → ns ≤ sc →
      save_model_if_epoch eL ns sc = ([sc], ns + eL) ∧ ns + eL ≤ ns) ∧
    (∀ freq prev now : Rat, freq ≤ 0 → prev < now →
      write_summaries freq prev now = (true, now)) := by
  refine ⟨?_, ?_, ?_⟩
  · intro eL ns ic hE hic hle fuel
    simp [set_next_save, hic,
      setNextSaveLoop_stuck eL ic hE fuel ns hle]
  · intro eL ns sc hE hle
    constructor
    · simp [save_model_if_epoch, hle]
    · omega
  · intro freq prev now hf hlt
    simp only [write_summaries]
    rw [if_pos (by linarith)]

/-- closed instance of the amended C8 at concrete degenerate cadences. -/
theorem degenerate_cadence_behavior_witness :
    set_next_save (-2) 0 3 5 = none ∧
    save_model_if_epoch 0 5 7 = ([7], 5 + 0) ∧
    write_summaries 0 1 2 = (true, 2) :=
  ⟨degenerate_cadence_behavior.1 (-2) 0 3 (by omega) (by omega)
      (by omega) 5,
    (degenerate_cadence_behavior.2.1 0 5 7 (by omega) (by omega)).1,
    degenerate_cadence_behavior.2.2 0 1 2 (by norm_num) (by norm_num)⟩

/-- C9 refuted: on non-empty completed rewards the function returns the
rewards list itself (here [2, 4]), not their mean 3. -/
theorem report_returns_list_not_mean :
    (log_episode_results [2, 4] 100 (some 100) none 0 1).2 = [2, 4] ∧
    mean [2, 4] = 3 ∧
    (log_episode_results [2, 4] 100 (some 100) none 0 1).2 ≠ [3] := by
  refine ⟨?_, ?_, ?_⟩
  · norm_num [log_episode_results]
  · norm_num [mean]
  · norm_num [log_episode_results]

/-- C9 amended: report always returns the completed-rewards list
unchanged (the empty — falsy — list when nothing completed, not a
distinguished none); when the list is empty it emits no log line (hence
performs no division, the mean being computed only to build the log
line); when non-empty it emits exactly one log line whose reward field is
the mean of the list. -/
theorem report_spec :
    ∀ (tr : List Rat) (g : Int) (l : Option Int) (rk : Option Int)
      (ic : Int) (dt : Rat),
    (log_episode_results tr g l rk ic dt).2 = tr ∧
    (tr = [] → (log_episode_results tr g l rk ic dt).1 = []) ∧
    (tr ≠ [] → ∃ lr, (log_episode_results tr g l rk ic dt).1 = [lr] ∧
      lr.reward = mean tr) := by
  intro tr g l rk ic dt
  cases tr with
  | nil => exact ⟨rfl, fun _ => rfl, fun h => absurd rfl h⟩
  | cons x xs =>
    refine ⟨?_, fun h => by simp at h, fun _ => ?_⟩
    · simp only [log_episode_results, List.isEmpty_cons, Bool.false_eq_true,
        if_false]
      cases rk
      · rfl
      · rfl
    · simp only [log_episode_results, List.isEmpty_cons, Bool.false_eq_true,
        if_false]
      cases rk
      · exact ⟨_, rfl, rfl⟩
      · exact ⟨_, rfl, rfl⟩

/-- closed instance of the amended C9: the empty call logs nothing and
returns the empty list; [2, 4] yields one log line carrying mean 3. -/
theorem report_spec_witness :
    (log_episode_results [] 100 (some 100) none 0 1).1 = [] ∧
    (log_episode_results [] 100 (some 100) none 0 1).2 = [] ∧
    ∃ lr, (log_episode_results [2, 4] 100 (some 100) none 0 1).1 = [lr] ∧
      lr.reward = mean [2, 4] :=
  ⟨(report_spec [] 100 (some 100) none 0 1).2.1 rfl,
    (report_spec [] 100 (some 100) none 0 1).1,
    (report_spec [2, 4] 100 (some 100) none 0 1).2.2 (by simp)⟩

/-- C10: the evaluation-mode override never advances `local_step_count`
(over any successful sequence of ingests it keeps its initial value),
whereas the training-mode ingest it overrides advances it by `nb_env` on
every successful call. -/
theorem eval_ingest_preserves_local_step :
    (∀ (s : EvalState) (steps : List StepInput) (s2 : EvalState),
      runEval s steps = some s2 → s2.localStep = s.localStep) ∧
    (∀ (nbEnv : Nat) (s : TrainState) (rw : List Rat)
        (ts infs : List Bool) (s2 : TrainState) (em : List Rat)
        (ei : List Bool),
      CountsRewards.update_buffers nbEnv s rw ts infs = some (s2, em, ei) →
      s2.localStep = s.localStep + nbEnv) := by
  constructor
  · intro s steps
    induction steps generalizing s with
    | nil =>
      intro s2 h
      simp only [runEval, Option.some.injEq] at h
      rw [← h]
    | cons stp rest ih =>
      intro s2 h
      simp only [runEval, Evaluation.update_buffers] at h
      cases hi : evalIngest s.buf s.statuses stp.rewards stp.terminals
          stp.infos with
      | none => rw [hi] at h; simp at h
      | some p =>
        rw [hi] at h
        simp only [Option.map_some', Option.some_bind] at h
        exact ih ⟨p.1, p.2, s.localStep⟩ s2 h
  · intro nbEnv s rw ts infs s2 em ei h
    simp only [CountsRewards.update_buffers, Option.map_eq_some'] at h
    obtain ⟨buf2, _, hp⟩ := h
    simp only [Prod.mk.injEq] at hp
    obtain ⟨h1, _⟩ := hp
    rw [← h1]

/-- closed instance of C10: one evaluation ingest keeps local_step_count
at 42; one training ingest advances it from 5 to 6. -/
theorem eval_ingest_preserves_local_step_witness :
    (⟨[3], [true], 42⟩ : EvalState).localStep
      = (⟨[0], [false], 42⟩ : EvalState).localStep ∧
    (⟨[2], 6⟩ : TrainState).localStep
      = (⟨[0], 5⟩ : TrainState).localStep + 1 :=
  ⟨eval_ingest_preserves_local_step.1 ⟨[0], [false], 42⟩
      [⟨[3], [true], [true]⟩] ⟨[3], [true], 42⟩
      (by norm_num [runEval, Evaluation.update_buffers, evalIngest]),
    eval_ingest_preserves_local_step.2 1 ⟨[0], 5⟩ [2] [false] [false]
      ⟨[2], 6⟩ [] []
      (by norm_num [CountsRewards.update_buffers, tensorAddInplace,
        scanTerminals])⟩

end Adept
